import Mathlib

/-!
Shallow embedding of `github_recent_contributors.py`.

The script is a three-stage pipeline: paginated repository listing
(`get_repos`), paginated member listing (`get_organization_members`),
per-repository commit aggregation plus optional name filtering
(`get_contributors`), and the report assembly (`report_contributors`).

The HTTP world is modelled by lists of page responses: page `n`
(1-indexed) of an endpoint is the `n`-th element of the list, and any
page requested beyond the end of the list is the platform's empty
`200` page (GitHub list endpoints return `[]` past the last page).
Dates, console printing and file output are glue outside the embedded
core; the commit endpoint is abstracted as a function from
`(owner, repo_name)` to its list of commit pages, already restricted
to the run's date window.
-/

namespace GRC

/-- A repository object, with the fields the script reads:
`repo['name']`, `repo['owner']['login']`, `repo['html_url']`. -/
structure Repo where
  name : String
  owner_login : String
  html_url : String
deriving DecidableEq, Repr

/-- One response of the `/orgs/{org}/repos?page=N` endpoint:
an HTTP status code, the optional `message` field of the JSON body
(read by `response.json().get('message', 'Unknown error')` on 403),
and the list of repository objects of a success body. -/
structure PageResponse where
  status_code : Nat
  message : Option String
  items : List Repo
deriving DecidableEq, Repr

/-- Errors the run can abort with (`raise ValueError(...)` in the
script, with the data each message interpolates). -/
inductive RunError where
  | rateLimitExceeded (message : String)
  | accessDenied (org_name : String) (message : String)
  | requestFailed (org_name : String) (status_code : Nat)
  | commitAuthorMissing
deriving DecidableEq, Repr

/-- Test that `pat` occurs as a contiguous substring of `s`
(Python's `pat in s` on strings), on character lists. -/
def listHasSub (pat : List Char) : List Char → Bool
  | [] => pat.isEmpty
  | c :: rest => pat.isPrefixOf (c :: rest) || listHasSub pat rest

/-- The substring the 403 handler looks for:
`'rate limit exceeded' in error_message.lower()`. -/
def rate_limit_text : List Char := "rate limit exceeded".toList

/-- Python's `str.lower()`, modelled as character-wise lowering
(`String.toLower` is definitionally opaque; repository names are
compared character by character). -/
def lower (s : String) : String := ⟨s.data.map Char.toLower⟩

/-- The pagination loop of `get_repos`, recursing over the remaining
page responses, carrying the accumulated `repos` list and the number
of page requests already issued.  Reaching the end of the response
list models one further request answered by the empty `200` page
(`if not repos_page: break`). -/
def get_reposPages (org_name : String) :
    List PageResponse → List Repo → Nat → Except RunError (List Repo × Nat)
  | [], repos, n => Except.ok (repos, n + 1)
  | r :: rest, repos, n =>
    if r.status_code = 403 then
      let error_message := r.message.getD "Unknown error"
      if listHasSub rate_limit_text (lower error_message).toList then
        Except.error (RunError.rateLimitExceeded error_message)
      else
        Except.error (RunError.accessDenied org_name error_message)
    else if r.status_code ≠ 200 then
      Except.error (RunError.requestFailed org_name r.status_code)
    else if r.items.isEmpty then
      Except.ok (repos, n + 1)
    else
      get_reposPages org_name rest (repos ++ r.items) (n + 1)

/-- The function `get_repos(org_name, headers)`: the full repository list, or the
`ValueError` the 403 / non-200 handling raises. -/
def get_repos (org_name : String) (pages : List PageResponse) :
    Except RunError (List Repo) :=
  (get_reposPages org_name pages [] 0).map Prod.fst

/-- A member object, with the field the script reads:
`member['login']`. -/
structure Member where
  login : String
deriving DecidableEq, Repr

/-- One response of the `/orgs/{org}/members?page=N` endpoint. -/
structure MemberPage where
  status_code : Nat
  items : List Member
deriving DecidableEq, Repr

/-- The pagination loop of `get_organization_members`: accumulates
member objects and the number of page requests issued; a non-200
status or an empty page stops the loop (`break`), never raising. -/
def get_organization_membersPages :
    List MemberPage → List Member → Nat → List Member × Nat
  | [], members, n => (members, n + 1)
  | r :: rest, members, n =>
    if r.status_code ≠ 200 then
      (members, n + 1)
    else if r.items.isEmpty then
      (members, n + 1)
    else
      get_organization_membersPages rest (members ++ r.items) (n + 1)

/-- The function `get_organization_members(org_name, headers)`:
`{member['login'] for member in members}`. -/
def get_organization_members (pages : List MemberPage) : Finset String :=
  (((get_organization_membersPages pages [] 0).1).map Member.login).toFinset

/-! ## Repository filtering (`get_contributors`, filtering block) -/

/-- The filtering step of `get_contributors`: when `interesting_repos`
is truthy (non-empty), keep the repositories whose lowercased name is
in the lowercased requested-name set; a falsy (empty / unset)
`interesting_repos` leaves `repos` unchanged (the whole block is
skipped).  The Python set `interesting_repos` is modelled as a list;
set membership is list membership. -/
def filterByName (repos : List Repo) (interesting_repos : List String) :
    List Repo :=
  if interesting_repos.isEmpty then repos
  else
    repos.filter (fun repo =>
      (interesting_repos.map lower).contains (lower repo.name))

/-- The set `found_repo_names = {repo['name'].lower() for repo in filtered_repos}`. -/
def found_repo_names (filtered_repos : List Repo) : List String :=
  filtered_repos.map (fun repo => lower repo.name)

/-- The difference `missing_repos = interesting_repos_lower - found_repo_names`:
the lowercased requested names with no match among the kept
repositories (`dedup` models the Python set of lowercased names). -/
def missing_repos (repos : List Repo) (interesting_repos : List String) :
    List String :=
  ((interesting_repos.map lower).dedup).filter
    (fun n => !(found_repo_names (filterByName repos interesting_repos)).contains n)

/-- The names printed in the "requested but not found" warning:
each missing lowercased name is replaced by the caller's original
casing, `next((r for r in interesting_repos if r.lower() == repo), repo)`. -/
def missing_repos_report (repos : List Repo) (interesting_repos : List String) :
    List String :=
  (missing_repos repos interesting_repos).map
    (fun n => ((interesting_repos.find? (fun r => lower r = n)).getD n))

/-! ## Commit aggregation (`get_contributors`, main loop) -/

/-- A commit object, with the fields the script reads.
`authorName` is `commit['commit']['author']['name']`: `none` models the
nested path being absent or null (reading it raises in Python).
`author` is `commit['author']`: `none` when null (no linked platform
account), otherwise carrying `commit['author']['login']`. -/
structure Commit where
  authorName : Option String
  author : Option String
deriving DecidableEq, Repr

/-- One body of a `/repos/{owner}/{repo}/commits` page response:
either a JSON list of commits, or anything that is not a list
(`if not isinstance(commits_page, list)`). -/
inductive CommitsPage where
  | list (commits : List Commit)
  | nonList
deriving DecidableEq, Repr

/-- The per-repository mutable state of the commit loop:
`repo_contributors` and `repo_authors` are Python dicts from name to
count (modelled as insertion-ordered association lists with unique
keys), `total_commits` the counter. -/
structure RepoState where
  repo_contributors : List (String × Nat)
  repo_authors : List (String × Nat)
  total_commits : Nat
deriving DecidableEq, Repr

/-- Python's `d[k] = d.get(k, 0) + 1` on an insertion-ordered dict. -/
def bump : List (String × Nat) → String → List (String × Nat)
  | [], k => [(k, 1)]
  | (k', v) :: rest, k =>
    if k' = k then (k', v + 1) :: rest else (k', v) :: bump rest k

/-- The `for commit in commits_page` body: count the commit, read the
(unguarded) commit-metadata author name — `none` raises, modelled as
`Option.none` for the whole run — and, only when `commit['author']` is
truthy, count the linked login. -/
def processCommits : List Commit → RepoState → Option RepoState
  | [], st => some st
  | c :: cs, st =>
    let st := { st with total_commits := st.total_commits + 1 }
    match c.authorName with
    | none => none
    | some author_name =>
      let st := { st with repo_contributors := bump st.repo_contributors author_name }
      let st :=
        match c.author with
        | some github_login => { st with repo_authors := bump st.repo_authors github_login }
        | none => st
      processCommits cs st

/-- The commits pagination loop of one repository: a non-list body or
an empty list stops the loop (`break`), keeping the accumulated state;
the end of the response list models the next request answering with
the empty page. -/
def fetchCommits : List CommitsPage → RepoState → Option RepoState
  | [], st => some st
  | CommitsPage.nonList :: _, st => some st
  | CommitsPage.list [] :: _, st => some st
  | CommitsPage.list (c :: cs) :: rest, st =>
    match processCommits (c :: cs) st with
    | none => none
    | some st' => fetchCommits rest st'

/-- The commits a run of the pagination loop iterates over: pages are
consumed in order until a non-list or empty body. -/
def countedCommits : List CommitsPage → List Commit
  | [] => []
  | CommitsPage.nonList :: _ => []
  | CommitsPage.list [] :: _ => []
  | CommitsPage.list (c :: cs) :: rest => (c :: cs) ++ countedCommits rest

/-- One repository's `repos_detail` entry. -/
structure RepoAggregate where
  repository_url : String
  total_commits : Nat
  unique_contributors_count : Nat
  unique_github_authors_count : Nat
  commit_authors : List (String × Nat)
  github_authors : List (String × Nat)
deriving DecidableEq, Repr

/-- The entry `repos_detail[repo_name] = {...}` built after a repository's
pagination loop ends. -/
def mk_repos_detail_entry (repo : Repo) (st : RepoState) : RepoAggregate :=
  { repository_url := repo.html_url
    total_commits := st.total_commits
    unique_contributors_count := st.repo_contributors.length
    unique_github_authors_count := st.repo_authors.length
    commit_authors := st.repo_contributors
    github_authors := st.repo_authors }

/-- Python dict assignment `d[k] = v`: replace in place when the key
exists, append otherwise. -/
def dictInsert (m : List (String × RepoAggregate)) (k : String)
    (v : RepoAggregate) : List (String × RepoAggregate) :=
  if m.any (fun p => p.1 = k) then
    m.map (fun p => if p.1 = k then (k, v) else p)
  else m ++ [(k, v)]

/-- Sum of the counts of a per-name dict. -/
def sumVals (m : List (String × Nat)) : Nat := (m.map Prod.snd).sum

/-- The `for repo in repos` loop of `get_contributors`: analyze each
repository in order with `commitsFor owner repo_name` as its commit
pages, build its `repos_detail` entry, and fold its dict keys into the
global `unique_contributors` / `unique_authors` sets.  A raising
author-name read aborts the whole run. -/
def contributorsLoop (commitsFor : String → String → List CommitsPage) :
    List Repo → Finset String → Finset String →
    List (String × RepoAggregate) →
    Except RunError (Finset String × Finset String × List (String × RepoAggregate))
  | [], unique_contributors, unique_authors, repos_detail =>
    Except.ok (unique_contributors, unique_authors, repos_detail)
  | repo :: rest, unique_contributors, unique_authors, repos_detail =>
    match fetchCommits (commitsFor repo.owner_login repo.name) ⟨[], [], 0⟩ with
    | none => Except.error RunError.commitAuthorMissing
    | some st =>
      contributorsLoop commitsFor rest
        (unique_contributors ∪ (st.repo_contributors.map Prod.fst).toFinset)
        (unique_authors ∪ (st.repo_authors.map Prod.fst).toFinset)
        (dictInsert repos_detail repo.name (mk_repos_detail_entry repo st))

/-- The function `get_contributors(org_name, number_of_days, headers, interesting_repos)`:
fetch the repositories (hard failure propagates), filter when a
non-empty `interesting_repos` is given, return the empty triple when
filtering leaves nothing, otherwise run the per-repository loop.
The date window only parametrizes `commitsFor` and is not modelled. -/
def get_contributors (org_name : String) (repoPages : List PageResponse)
    (interesting_repos : List String)
    (commitsFor : String → String → List CommitsPage) :
    Except RunError (Finset String × Finset String × List (String × RepoAggregate)) :=
  match get_repos org_name repoPages with
  | Except.error e => Except.error e
  | Except.ok repos =>
    let repos := filterByName repos interesting_repos
    if !interesting_repos.isEmpty && repos.isEmpty then
      Except.ok (∅, ∅, [])
    else
      contributorsLoop commitsFor repos ∅ ∅ []

/-! ## Report assembly (`report_contributors`) -/

/-- The `output_data` record written by `report_contributors`
(`date` and the output-file glue are outside the embedded core). -/
structure RunResult where
  organization : String
  number_of_days_history : Nat
  org_members : Finset String
  commit_authors : Finset String
  commiting_members : Finset String
  repos_detail : List (String × RepoAggregate)
deriving DecidableEq

/-- The function `report_contributors(org_name, number_of_days, interesting_repos)`:
fetch the member set, run the analysis, and assemble `output_data`
with `commiting_members = unique_authors & org_members`. -/
def report_contributors (org_name : String) (number_of_days : Nat)
    (memberPages : List MemberPage) (repoPages : List PageResponse)
    (interesting_repos : List String)
    (commitsFor : String → String → List CommitsPage) :
    Except RunError RunResult :=
  let org_members := get_organization_members memberPages
  match get_contributors org_name repoPages interesting_repos commitsFor with
  | Except.error e => Except.error e
  | Except.ok (_unique_contributors, unique_authors, repos_detail) =>
    Except.ok
      { organization := org_name
        number_of_days_history := number_of_days
        org_members := org_members
        commit_authors := unique_authors
        commiting_members := unique_authors ∩ org_members
        repos_detail := repos_detail }

/-- Propositional equality on `Except` results is decidable, so that
concrete runs of the embedded functions can be checked by `decide`. -/
instance {e a : Type} [DecidableEq e] [DecidableEq a] : DecidableEq (Except e a) :=
  fun x y =>
    match x, y with
    | Except.ok v, Except.ok w =>
      if h : v = w then Decidable.isTrue (by rw [h])
      else Decidable.isFalse (fun hc => h (Except.ok.inj hc))
    | Except.error v, Except.error w =>
      if h : v = w then Decidable.isTrue (by rw [h])
      else Decidable.isFalse (fun hc => h (Except.error.inj hc))
    | Except.ok _, Except.error _ => Decidable.isFalse (fun hc => Except.noConfusion hc)
    | Except.error _, Except.ok _ => Decidable.isFalse (fun hc => Except.noConfusion hc)

/-! ## Helper lemmas -/

/-- Traversing a run of successful non-empty pages accumulates their
items in order and issues one request per page. -/
theorem get_reposPages_good (org : String) (good rest : List PageResponse)
    (acc : List Repo) (n : Nat)
    (h : ∀ p ∈ good, p.status_code = 200 ∧ p.items ≠ []) :
    get_reposPages org (good ++ rest) acc n =
      get_reposPages org rest (acc ++ (good.map PageResponse.items).flatten)
        (n + good.length) := by
  induction good generalizing acc n with
  | nil => simp
  | cons p ps ih =>
    obtain ⟨h200, hne⟩ := h p (List.mem_cons_self ..)
    have hforall : ∀ q ∈ ps, q.status_code = 200 ∧ q.items ≠ [] :=
      fun q hq => h q (List.mem_cons_of_mem _ hq)
    simp only [List.cons_append, get_reposPages, h200, List.append_eq]
    rw [if_neg (by omega), if_neg (by simp),
      if_neg (by simp [List.isEmpty_eq_false.mpr hne]),
      ih _ _ hforall]
    simp only [List.map_cons, List.flatten_cons, List.append_assoc, List.length_cons]
    rw [show n + 1 + ps.length = n + (ps.length + 1) by omega]

/-- Member-lister analogue of `get_reposPages_good`. -/
theorem get_organization_membersPages_good (good rest : List MemberPage)
    (acc : List Member) (n : Nat)
    (h : ∀ p ∈ good, p.status_code = 200 ∧ p.items ≠ []) :
    get_organization_membersPages (good ++ rest) acc n =
      get_organization_membersPages rest (acc ++ (good.map MemberPage.items).flatten)
        (n + good.length) := by
  induction good generalizing acc n with
  | nil => simp
  | cons p ps ih =>
    obtain ⟨h200, hne⟩ := h p (List.mem_cons_self ..)
    have hforall : ∀ q ∈ ps, q.status_code = 200 ∧ q.items ≠ [] :=
      fun q hq => h q (List.mem_cons_of_mem _ hq)
    simp only [List.cons_append, get_organization_membersPages, h200, List.append_eq]
    rw [if_neg (by simp), if_neg (by simp [List.isEmpty_eq_false.mpr hne]),
      ih _ _ hforall]
    simp only [List.map_cons, List.flatten_cons, List.append_assoc, List.length_cons]
    rw [show n + 1 + ps.length = n + (ps.length + 1) by omega]

/-- A repository page of `k` copies of one item, and the members
analogue, for the `[30, 30, 0]` pagination scenario. -/
def pageOfSize (k : Nat) : PageResponse :=
  { status_code := 200, message := none,
    items := List.replicate k ⟨"alpha", "octo", "https://example.com/alpha"⟩ }

def memberPageOfSize (k : Nat) : MemberPage :=
  { status_code := 200, items := List.replicate k ⟨"mona"⟩ }

/-! ## Claims -/

/-- Claim C3: both paged fetchers request successive pages in order,
terminate exactly when a request answers with an empty page, and
return the concatenation of all items seen, with no fixed page-count
ceiling (the first two conjuncts hold for response lists of every
length); in particular pages of sizes `[30, 30, 0]` yield exactly 60
items in exactly 3 page requests, for the repository lister and the
member lister alike. -/
theorem pagination_until_empty_page :
    (∀ (org : String) (pages : List PageResponse),
        (∀ p ∈ pages, p.status_code = 200 ∧ p.items ≠ []) →
        get_reposPages org pages [] 0 =
          Except.ok ((pages.map PageResponse.items).flatten, pages.length + 1)) ∧
    (∀ pages : List MemberPage,
        (∀ p ∈ pages, p.status_code = 200 ∧ p.items ≠ []) →
        get_organization_membersPages pages [] 0 =
          ((pages.map MemberPage.items).flatten, pages.length + 1)) ∧
    get_reposPages "octo" [pageOfSize 30, pageOfSize 30, pageOfSize 0] [] 0 =
      Except.ok (List.replicate 60 ⟨"alpha", "octo", "https://example.com/alpha"⟩, 3) ∧
    get_organization_membersPages
        [memberPageOfSize 30, memberPageOfSize 30, memberPageOfSize 0] [] 0 =
      (List.replicate 60 ⟨"mona"⟩, 3) := by
  refine ⟨fun org pages h => ?_, fun pages h => ?_, by decide, by decide⟩
  · have hgood := get_reposPages_good org pages [] [] 0 h
    rw [List.append_nil] at hgood
    rw [hgood]
    simp [get_reposPages]
  · have hgood := get_organization_membersPages_good pages [] [] 0 h
    rw [List.append_nil] at hgood
    rw [hgood]
    simp [get_organization_membersPages]

/-- Witness for C3 at a concrete one-page input. -/
theorem pagination_until_empty_page_witness :
    get_reposPages "octo" [pageOfSize 2] [] 0 =
      Except.ok (List.replicate 2 ⟨"alpha", "octo", "https://example.com/alpha"⟩, 2) :=
  pagination_until_empty_page.1 "octo" [pageOfSize 2] (by decide)

/-- Claim C4 counterexample: a 201 response is a 2xx status, yet the
repository lister fails with the request-failed error (the code
treats every status other than 403 and 200 as a failure, not every
non-2xx status). -/
theorem get_repos_fails_on_status_201 :
    get_repos "octo" [⟨201, none, [⟨"alpha", "octo", "https://example.com/alpha"⟩]⟩] =
      Except.error (RunError.requestFailed "octo" 201) ∧
    (200 ≤ 201 ∧ 201 < 300) := by decide

/-- Claim C4 (amended: "non-2xx" → "non-200"): repository listing
fails exactly as classified, aborting with no partial result at
whatever page the failure occurs — a 403 whose body message contains
the rate-limit text fails with the rate-limit error carrying the
platform's message, any other 403 fails with the access-denied error,
any other non-200 status fails with the request-failed error carrying
the status code and organization name, and on all-200 responses the
full unfiltered repository list is returned. -/
theorem get_repos_error_classification :
    (∀ (org : String) (good : List PageResponse) (r : PageResponse)
        (rest : List PageResponse),
        (∀ p ∈ good, p.status_code = 200 ∧ p.items ≠ []) →
        r.status_code = 403 →
        listHasSub rate_limit_text
          (lower (r.message.getD "Unknown error")).toList = true →
        get_repos org (good ++ r :: rest) =
          Except.error (RunError.rateLimitExceeded (r.message.getD "Unknown error"))) ∧
    (∀ (org : String) (good : List PageResponse) (r : PageResponse)
        (rest : List PageResponse),
        (∀ p ∈ good, p.status_code = 200 ∧ p.items ≠ []) →
        r.status_code = 403 →
        listHasSub rate_limit_text
          (lower (r.message.getD "Unknown error")).toList = false →
        get_repos org (good ++ r :: rest) =
          Except.error (RunError.accessDenied org (r.message.getD "Unknown error"))) ∧
    (∀ (org : String) (good : List PageResponse) (r : PageResponse)
        (rest : List PageResponse),
        (∀ p ∈ good, p.status_code = 200 ∧ p.items ≠ []) →
        r.status_code ≠ 403 → r.status_code ≠ 200 →
        get_repos org (good ++ r :: rest) =
          Except.error (RunError.requestFailed org r.status_code)) ∧
    (∀ (org : String) (pages : List PageResponse),
        (∀ p ∈ pages, p.status_code = 200 ∧ p.items ≠ []) →
        get_repos org pages =
          Except.ok ((pages.map PageResponse.items).flatten)) := by
  refine ⟨fun org good r rest hg h403 hrl => ?_,
    fun org good r rest hg h403 hrl => ?_,
    fun org good r rest hg h403 h200 => ?_,
    fun org pages h => ?_⟩
  · unfold get_repos
    rw [get_reposPages_good org good (r :: rest) [] 0 hg]
    simp only [String.toList] at hrl
    simp [get_reposPages, h403, hrl, Except.map]
  · unfold get_repos
    rw [get_reposPages_good org good (r :: rest) [] 0 hg]
    simp only [String.toList] at hrl
    simp [get_reposPages, h403, hrl, Except.map]
  · unfold get_repos
    rw [get_reposPages_good org good (r :: rest) [] 0 hg]
    simp [get_reposPages, h403, h200, Except.map]
  · unfold get_repos
    have hgood := get_reposPages_good org pages [] [] 0 h
    rw [List.append_nil] at hgood
    rw [hgood]
    simp [get_reposPages, Except.map]

/-- Witness for C4 at concrete inputs: a rate-limited 403 and an
all-success listing. -/
theorem get_repos_error_classification_witness :
    get_repos "octo"
        ([] ++ (⟨403, some "API rate limit exceeded for 1.2.3.4.", []⟩ : PageResponse) :: []) =
      Except.error (RunError.rateLimitExceeded "API rate limit exceeded for 1.2.3.4.") ∧
    get_repos "octo" [pageOfSize 1] =
      Except.ok (([pageOfSize 1].map PageResponse.items).flatten) :=
  ⟨get_repos_error_classification.1 "octo" [] _ [] (by decide) rfl (by decide),
    get_repos_error_classification.2.2.2 "octo" [pageOfSize 1] (by decide)⟩

/-- Claim C5: member listing never fails the run — after any run of
successful non-empty pages, a non-200 response stops pagination at
once and the member set collected from the earlier pages is returned,
whatever responses would have followed. -/
theorem member_listing_never_fails (good : List MemberPage) (bad : MemberPage)
    (rest : List MemberPage)
    (hgood : ∀ p ∈ good, p.status_code = 200 ∧ p.items ≠ [])
    (hbad : bad.status_code ≠ 200) :
    get_organization_members (good ++ bad :: rest) =
      (((good.map MemberPage.items).flatten).map Member.login).toFinset := by
  unfold get_organization_members
  rw [get_organization_membersPages_good good (bad :: rest) [] 0 hgood]
  simp [get_organization_membersPages, hbad]

/-- A repository kept by the name filter is one of the fetched
repositories. -/
theorem mem_filterByName_subset (repos : List Repo)
    (interesting_repos : List String) (r : Repo)
    (h : r ∈ filterByName repos interesting_repos) : r ∈ repos := by
  unfold filterByName at h
  split at h
  · exact h
  · exact List.mem_of_mem_filter h

/-- Claim C6: filtering keeps exactly the repositories whose name
matches some requested name by case-insensitive exact comparison; an
empty (or unset) requested-name list returns the repository list
unchanged; and every requested name with no case-insensitive match
among the repositories appears in the missing-name report in the
caller's original casing. -/
theorem filter_case_insensitive_exact_and_missing_report :
    (∀ repos : List Repo, filterByName repos [] = repos) ∧
    (∀ (repos : List Repo) (interesting_repos : List String) (r : Repo),
        interesting_repos ≠ [] →
        (r ∈ filterByName repos interesting_repos ↔
          r ∈ repos ∧ ∃ w ∈ interesting_repos, lower w = lower r.name)) ∧
    (∀ (repos : List Repo) (interesting_repos : List String) (w : String),
        w ∈ interesting_repos →
        (∀ r ∈ repos, lower r.name ≠ lower w) →
        ∃ m ∈ missing_repos_report repos interesting_repos,
          m ∈ interesting_repos ∧ lower m = lower w) := by
  refine ⟨fun repos => by simp [filterByName], ?_, ?_⟩
  · intro repos interesting_repos r hne
    unfold filterByName
    rw [if_neg (by simp [List.isEmpty_eq_false.mpr hne])]
    simp only [List.mem_filter, List.elem_iff, List.mem_map]
  · intro repos interesting_repos w hw hno
    have hmem : lower w ∈ (interesting_repos.map lower).dedup := by
      rw [List.mem_dedup]
      exact List.mem_map_of_mem _ hw
    have hnotfound :
        (found_repo_names (filterByName repos interesting_repos)).contains (lower w)
          = false := by
      rw [Bool.eq_false_iff]
      intro hc
      obtain ⟨r, hr, hrw⟩ :=
        List.mem_map.mp (List.elem_iff.mp hc)
      exact hno r (mem_filterByName_subset repos interesting_repos r hr) hrw
    have hlow : lower w ∈ missing_repos repos interesting_repos := by
      unfold missing_repos
      rw [List.mem_filter]
      refine ⟨hmem, ?_⟩
      show (!(found_repo_names (filterByName repos interesting_repos)).contains (lower w))
        = true
      rw [hnotfound]
      rfl
    have hfind : ∃ m, interesting_repos.find? (fun r => lower r = lower w) = some m := by
      cases hf : interesting_repos.find? (fun r => lower r = lower w) with
      | some m => exact ⟨m, rfl⟩
      | none =>
        have := List.find?_eq_none.mp hf w hw
        simp at this
    obtain ⟨m, hm⟩ := hfind
    refine ⟨m, ?_, List.mem_of_find?_eq_some hm, ?_⟩
    · unfold missing_repos_report
      exact List.mem_map.mpr ⟨lower w, hlow, by rw [hm]; rfl⟩
    · have := List.find?_some hm
      simpa using this

/-- Witness for C6 at a concrete input: the filter keeps `Alpha`
requested as `"alpha"`. -/
theorem filter_case_insensitive_exact_witness :
    (⟨"Alpha", "octo", "u"⟩ : Repo) ∈
        filterByName [⟨"Alpha", "octo", "u"⟩] ["alpha"] ↔
      (⟨"Alpha", "octo", "u"⟩ : Repo) ∈ [(⟨"Alpha", "octo", "u"⟩ : Repo)] ∧
        ∃ w ∈ ["alpha"], lower w = lower "Alpha" :=
  filter_case_insensitive_exact_and_missing_report.2.1
    [⟨"Alpha", "octo", "u"⟩] ["alpha"] ⟨"Alpha", "octo", "u"⟩ (by decide)

/-- Claim C7: filtering is invariant under re-casing of the requested
names: `{"Foo"}` and `{"foo"}` keep exactly the same repositories,
for every repository list. -/
theorem filter_invariant_under_recasing (repos : List Repo) :
    filterByName repos ["Foo"] = filterByName repos ["foo"] := by
  unfold filterByName
  have h : (["Foo"].map lower) = (["foo"].map lower) := by decide
  rw [h]
  simp

/-- Claim C8: when a non-empty requested-name filter matches no
repository, the run returns the empty result (empty author-name set,
empty login set, empty per-repository mapping) with no error, and
this holds for every commit server — the commit-analysis pipeline is
short-circuited. -/
theorem empty_filter_returns_empty_result (org : String)
    (repoPages : List PageResponse) (interesting_repos : List String)
    (repos0 : List Repo)
    (h1 : interesting_repos ≠ [])
    (h2 : get_repos org repoPages = Except.ok repos0)
    (h3 : filterByName repos0 interesting_repos = [])
    (commitsFor : String → String → List CommitsPage) :
    get_contributors org repoPages interesting_repos commitsFor =
      Except.ok (∅, ∅, ([] : List (String × RepoAggregate))) := by
  unfold get_contributors
  rw [h2]
  simp only [h3]
  simp [List.isEmpty_eq_false.mpr h1]

/-- Witness for C8: filtering `{alpha}` by `{"zeta"}` yields the empty
result even though the commit server would answer garbage. -/
theorem empty_filter_returns_empty_result_witness :
    get_contributors "octo" [⟨200, none, [⟨"alpha", "octo", "u"⟩]⟩] ["zeta"]
        (fun _ _ => [CommitsPage.nonList]) =
      Except.ok (∅, ∅, ([] : List (String × RepoAggregate))) :=
  empty_filter_returns_empty_result "octo" [⟨200, none, [⟨"alpha", "octo", "u"⟩]⟩]
    ["zeta"] [⟨"alpha", "octo", "u"⟩] (by decide) (by decide) (by decide)
    (fun _ _ => [CommitsPage.nonList])

/-- The ten members of the C5 scenario. -/
def tenMembers : List Member :=
  [⟨"m1"⟩, ⟨"m2"⟩, ⟨"m3"⟩, ⟨"m4"⟩, ⟨"m5"⟩, ⟨"m6"⟩, ⟨"m7"⟩, ⟨"m8"⟩, ⟨"m9"⟩, ⟨"m10"⟩]

/-- Witness for C5: an HTTP 500 on page 2 after 10 members on page 1
yields exactly those 10 members. -/
theorem member_listing_never_fails_witness :
    get_organization_members [⟨200, tenMembers⟩, ⟨500, [⟨"lost"⟩]⟩] =
      (tenMembers.map Member.login).toFinset := by
  have := member_listing_never_fails [⟨200, tenMembers⟩] ⟨500, [⟨"lost"⟩]⟩ []
    (by decide) (by decide)
  simpa using this

/-- Bumping a count dict adds exactly one to the sum of its counts. -/
theorem sumVals_bump (m : List (String × Nat)) (k : String) :
    sumVals (bump m k) = sumVals m + 1 := by
  induction m with
  | nil => simp [bump, sumVals]
  | cons p rest ih =>
    obtain ⟨q, v⟩ := p
    by_cases h : q = k
    · simp [bump, h, sumVals]
      omega
    · simp [bump, h, sumVals] at ih ⊢
      omega

/-- Running the per-page commit loop adds the page's length to
`total_commits` and to the author-name counts, and the number of
linked commits to the login counts. -/
theorem processCommits_inv (cs : List Commit) (st st' : RepoState)
    (h : processCommits cs st = some st') :
    st'.total_commits = st.total_commits + cs.length ∧
    sumVals st'.repo_contributors = sumVals st.repo_contributors + cs.length ∧
    sumVals st'.repo_authors =
      sumVals st.repo_authors + cs.countP (fun c => c.author.isSome) := by
  induction cs generalizing st with
  | nil =>
    simp [processCommits] at h
    subst h
    simp
  | cons c cs ih =>
    obtain ⟨cn, ca⟩ := c
    cases cn with
    | none => simp [processCommits] at h
    | some nm =>
      cases ca with
      | none =>
        simp only [processCommits] at h
        obtain ⟨h1, h2, h3⟩ := ih _ h
        simp only [List.length_cons, List.countP_cons] at *
        simp [sumVals_bump] at *
        omega
      | some lg =>
        simp only [processCommits] at h
        obtain ⟨h1, h2, h3⟩ := ih _ h
        simp only [List.length_cons, List.countP_cons] at *
        simp [sumVals_bump] at *
        omega

/-- Pagination-loop analogue of `processCommits_inv`, over the
commits the loop actually iterates. -/
theorem fetchCommits_inv (pages : List CommitsPage) (st st' : RepoState)
    (h : fetchCommits pages st = some st') :
    st'.total_commits = st.total_commits + (countedCommits pages).length ∧
    sumVals st'.repo_contributors =
      sumVals st.repo_contributors + (countedCommits pages).length ∧
    sumVals st'.repo_authors =
      sumVals st.repo_authors +
        (countedCommits pages).countP (fun c => c.author.isSome) := by
  induction pages generalizing st with
  | nil =>
    simp [fetchCommits] at h
    subst h
    simp [countedCommits]
  | cons pg rest ih =>
    cases pg with
    | nonList =>
      simp [fetchCommits] at h
      subst h
      simp [countedCommits]
    | list cs =>
      cases cs with
      | nil =>
        simp [fetchCommits] at h
        subst h
        simp [countedCommits]
      | cons c cs' =>
        simp only [fetchCommits] at h
        cases hp : processCommits (c :: cs') st with
        | none => rw [hp] at h; simp at h
        | some st1 =>
          rw [hp] at h
          simp only [] at h
          obtain ⟨a1, a2, a3⟩ := processCommits_inv _ _ _ hp
          obtain ⟨b1, b2, b3⟩ := ih _ h
          simp only [countedCommits, List.length_append, List.countP_append]
          omega

/-- Every commit is either linked to an account or not. -/
theorem count_author_split (l : List Commit) :
    l.countP (fun c => c.author.isSome) + l.countP (fun c => c.author.isNone)
      = l.length := by
  induction l with
  | nil => rfl
  | cons c cs ih =>
    obtain ⟨cn, ca⟩ := c
    cases ca <;> simp [List.countP_cons] <;> omega

/-- Claim C2: in every repository aggregate the commit loop produces,
the per-author-name counts sum to `total_commits`, and `total_commits`
equals the per-login counts plus the number of counted commits with no
linked platform account. -/
theorem aggregate_commit_count_invariant (repo : Repo)
    (pages : List CommitsPage) (st : RepoState)
    (h : fetchCommits pages ⟨[], [], 0⟩ = some st) :
    sumVals (mk_repos_detail_entry repo st).commit_authors =
      (mk_repos_detail_entry repo st).total_commits ∧
    (mk_repos_detail_entry repo st).total_commits =
      sumVals (mk_repos_detail_entry repo st).github_authors +
        (countedCommits pages).countP (fun c => c.author.isNone) := by
  obtain ⟨a1, a2, a3⟩ := fetchCommits_inv _ _ _ h
  have hsplit := count_author_split (countedCommits pages)
  simp [mk_repos_detail_entry, sumVals] at *
  omega

/-- Witness for C2 at the page `[Jane Doe (unlinked), X (login x)]`. -/
theorem aggregate_commit_count_invariant_witness :
    sumVals (mk_repos_detail_entry ⟨"alpha", "octo", "u"⟩
        ⟨[("Jane Doe", 1), ("X", 1)], [("x", 1)], 2⟩).commit_authors =
      (mk_repos_detail_entry ⟨"alpha", "octo", "u"⟩
        ⟨[("Jane Doe", 1), ("X", 1)], [("x", 1)], 2⟩).total_commits ∧
    (mk_repos_detail_entry ⟨"alpha", "octo", "u"⟩
        ⟨[("Jane Doe", 1), ("X", 1)], [("x", 1)], 2⟩).total_commits =
      sumVals (mk_repos_detail_entry ⟨"alpha", "octo", "u"⟩
          ⟨[("Jane Doe", 1), ("X", 1)], [("x", 1)], 2⟩).github_authors +
        (countedCommits
            [CommitsPage.list [⟨some "Jane Doe", none⟩, ⟨some "X", some "x"⟩]]).countP
          (fun c => c.author.isNone) :=
  aggregate_commit_count_invariant ⟨"alpha", "octo", "u"⟩
    [CommitsPage.list [⟨some "Jane Doe", none⟩, ⟨some "X", some "x"⟩]]
    ⟨[("Jane Doe", 1), ("X", 1)], [("x", 1)], 2⟩ (by decide)

/-- Claim C9: a commits-page body that is not a list stops that
repository's pagination only — the loop's result is exactly the
result on the pages before the non-list body, whatever follows it;
and the repository loop's outcome depends on each repository's
aggregation result alone, so all other repositories are processed
unaffected and no error aborts the run. -/
theorem non_list_commits_page_stops_repo_only :
    (∀ (pre rest : List CommitsPage) (st : RepoState),
        fetchCommits (pre ++ CommitsPage.nonList :: rest) st =
          fetchCommits pre st) ∧
    (∀ f g : String → String → List CommitsPage,
        (∀ owner repo_name,
            fetchCommits (f owner repo_name) ⟨[], [], 0⟩ =
              fetchCommits (g owner repo_name) ⟨[], [], 0⟩) →
        ∀ (repos : List Repo) (uc ua : Finset String)
          (detail : List (String × RepoAggregate)),
          contributorsLoop f repos uc ua detail =
            contributorsLoop g repos uc ua detail) := by
  constructor
  · intro pre
    induction pre with
    | nil => intro rest st; rfl
    | cons pg pre ih =>
      intro rest st
      cases pg with
      | nonList => rfl
      | list cs =>
        cases cs with
        | nil => rfl
        | cons c cs' =>
          simp only [List.cons_append, fetchCommits]
          cases processCommits (c :: cs') st with
          | none => rfl
          | some st1 => exact ih rest st1
  · intro f g hfg repos
    induction repos with
    | nil => intro uc ua detail; rfl
    | cons repo rest ih =>
      intro uc ua detail
      simp only [contributorsLoop, hfg repo.owner_login repo.name]
      cases fetchCommits (g repo.owner_login repo.name) ⟨[], [], 0⟩ with
      | none => rfl
      | some st => exact ih _ _ _

/-- Witness for C9: junk after the non-list page changes nothing for
the run over one repository. -/
theorem non_list_commits_page_stops_repo_only_witness :
    contributorsLoop
        (fun _ _ => [CommitsPage.list [⟨some "Jane Doe", none⟩], CommitsPage.nonList])
        [⟨"alpha", "octo", "u"⟩] ∅ ∅ [] =
      contributorsLoop (fun _ _ => [CommitsPage.list [⟨some "Jane Doe", none⟩]])
        [⟨"alpha", "octo", "u"⟩] ∅ ∅ [] :=
  non_list_commits_page_stops_repo_only.2
    (fun _ _ => [CommitsPage.list [⟨some "Jane Doe", none⟩], CommitsPage.nonList])
    (fun _ _ => [CommitsPage.list [⟨some "Jane Doe", none⟩]])
    (fun _ _ => rfl) [⟨"alpha", "octo", "u"⟩] ∅ ∅ []

/-- Claim C10: the author-name read is unguarded — a commit anywhere
in a page whose nested name field is absent or null makes the
per-commit step fail (`none`, the Python raise) rather than degrade —
while the linked-account field is guarded: a commit with a name but
no linked account is processed normally, bumping only the name
count. -/
theorem author_name_extraction_unguarded :
    (∀ (cs : List Commit) (st : RepoState) (c : Commit),
        c ∈ cs → c.authorName = none → processCommits cs st = none) ∧
    (∀ (c : Commit) (cs : List Commit) (st : RepoState) (nm : String),
        c.authorName = some nm → c.author = none →
        processCommits (c :: cs) st =
          processCommits cs
            { st with total_commits := st.total_commits + 1,
                      repo_contributors := bump st.repo_contributors nm }) := by
  constructor
  · intro cs
    induction cs with
    | nil => intro st c hc _; simp at hc
    | cons a cs ih =>
      intro st c hc hnone
      obtain ⟨an, aa⟩ := a
      cases an with
      | none => simp [processCommits]
      | some nm =>
        rcases List.mem_cons.mp hc with hceq | hctail
        · rw [hceq] at hnone; simp at hnone
        · cases aa <;> simp only [processCommits] <;> exact ih _ c hctail hnone
  · intro c cs st nm h1 h2
    obtain ⟨cn, ca⟩ := c
    simp only at h1 h2
    subst h1
    subst h2
    rfl

/-- Witness for C10: an unnamed commit fails; an unlinked but named
commit is counted without touching the login counts. -/
theorem author_name_extraction_unguarded_witness :
    processCommits [⟨none, some "x"⟩] ⟨[], [], 0⟩ = none ∧
    processCommits [(⟨some "Jane Doe", none⟩ : Commit)] ⟨[], [], 0⟩ =
      processCommits []
        { repo_contributors := bump [] "Jane Doe", repo_authors := [],
          total_commits := 0 + 1 } :=
  ⟨author_name_extraction_unguarded.1 [⟨none, some "x"⟩] ⟨[], [], 0⟩
      ⟨none, some "x"⟩ (List.mem_singleton.mpr rfl) rfl,
    author_name_extraction_unguarded.2 ⟨some "Jane Doe", none⟩ [] ⟨[], [], 0⟩
      "Jane Doe" rfl rfl⟩

/-- Claim C1: in every successfully assembled result, the
internal-contributors set is exactly the intersection of the global
commit-login set and the member set, and hence a subset of both. -/
theorem report_internal_contributors_is_intersection
    (org : String) (number_of_days : Nat) (memberPages : List MemberPage)
    (repoPages : List PageResponse) (interesting_repos : List String)
    (commitsFor : String → String → List CommitsPage) (res : RunResult)
    (h : report_contributors org number_of_days memberPages repoPages
        interesting_repos commitsFor = Except.ok res) :
    (∀ L : String,
        L ∈ res.commiting_members ↔
          L ∈ res.commit_authors ∧ L ∈ res.org_members) ∧
    res.commiting_members ⊆ res.commit_authors ∧
    res.commiting_members ⊆ res.org_members := by
  unfold report_contributors at h
  cases hc : get_contributors org repoPages interesting_repos commitsFor with
  | error e => rw [hc] at h; simp at h
  | ok t =>
    obtain ⟨uc, ua, detail⟩ := t
    rw [hc] at h
    injection h with h
    subst h
    exact ⟨fun L => Finset.mem_inter,
      Finset.inter_subset_left, Finset.inter_subset_right⟩

/-- The assembled result of the concrete run used to witness C1. -/
def resW : RunResult :=
  { organization := "octo"
    number_of_days_history := 30
    org_members := {"alice", "bob"}
    commit_authors := {"alice", "ext"}
    commiting_members := {"alice"}
    repos_detail :=
      [("alpha", ⟨"u", 2, 2, 2, [("Alice D", 1), ("Ext C", 1)],
        [("alice", 1), ("ext", 1)]⟩)] }

/-- Witness for C1 on a run with members `{alice, bob}` and commit
logins `{alice, ext}`. -/
theorem report_internal_contributors_is_intersection_witness :
    resW.commiting_members ⊆ resW.commit_authors ∧
    resW.commiting_members ⊆ resW.org_members :=
  (report_internal_contributors_is_intersection "octo" 30
    [⟨200, [⟨"alice"⟩, ⟨"bob"⟩]⟩] [⟨200, none, [⟨"alpha", "octo", "u"⟩]⟩] []
    (fun _ _ =>
      [CommitsPage.list [⟨some "Alice D", some "alice"⟩, ⟨some "Ext C", some "ext"⟩]])
    resW (by decide)).2

end GRC
